import Mathlib

/-!
Shallow embedding of the tabu-search engine (`src/search/tabu.rs`) and the
clustering adapter (`src/clustering/cluster_tabu.rs`).

Modelling choices:
* the `f64` cost values of the source become `ℚ` (the source only compares
  costs with `<`, never does float-specific arithmetic on them);
* the `HashSet` tabu list, used only through `insert` and `contains`, becomes
  a `List` queried by membership (`insert` becomes `cons`; a duplicated `cons`
  has the same membership semantics as the idempotent `HashSet::insert`);
* `best_descendant : Option<State>` together with `best_descendant_cost`
  initialised to `f64::INFINITY` become a single `Option (State × ℚ)`
  accumulator: `none` plays the role of the infinite initial cost, for which
  every comparison `descendant_cost < best_descendant_cost` succeeds;
* the iterator of descendants becomes a `List State`;
* the early `return descendant` inside the scan of the descendants becomes the
  `Except.error` branch of the scan.
-/

/-- Accumulator update of the descendant scan: mirrors the source's
`if descendant_cost < best_descendant_cost { best_descendant = Some(..) }`,
where `none` stands for the initial `f64::INFINITY` cost. -/
def updAcc {State : Type} (cost : State → ℚ) (acc : Option (State × ℚ)) (d : State) :
    Option (State × ℚ) :=
  match acc with
  | none => some (d, cost d)
  | some (b, cb) => if cost d < cb then some (d, cost d) else some (b, cb)

/-- Stopping-cost test of the source: `if let Some(sc) = stopping_cost { if descendant_cost < sc }`. -/
def belowStop {State : Type} (cost : State → ℚ) (sc : Option ℚ) (d : State) : Bool :=
  match sc with
  | none => false
  | some s => decide (cost d < s)

/-- Inner loop of `tabu_search` over the descendants of the current state:
skip tabu descendants, return (`Except.error`) the first non-tabu descendant
beating the stopping cost, otherwise fold the best-descendant accumulator. -/
def scanStep {State : Type} [DecidableEq State] (cost : State → ℚ) (sc : Option ℚ)
    (tabu : List State) : Option (State × ℚ) → List State → Except State (Option (State × ℚ))
  | acc, [] => .ok acc
  | acc, d :: rest =>
    if d ∈ tabu then scanStep cost sc tabu acc rest
    else if belowStop cost sc d then .error d
    else scanStep cost sc tabu (updAcc cost acc d) rest

/-- Outer loop of `tabu_search`: the `for _ in 0..max_iterations` loop, with the
remaining iteration count as fuel.  Each iteration inserts `current` into the
tabu list, scans the descendants, early-returns on a stopping-cost hit, and
otherwise advances `current` to the best descendant (updating `best`/`best_cost`
only on strict improvement). -/
def tabuLoop {State : Type} [DecidableEq State] (D : State → List State) (cost : State → ℚ)
    (sc : Option ℚ) : Nat → List State → State → ℚ → State → State
  | 0, _, best, _, _ => best
  | n + 1, tabu, best, bc, current =>
    match scanStep cost sc (current :: tabu) none (D current) with
    | .error d => d
    | .ok none => tabuLoop D cost sc n (current :: tabu) best bc current
    | .ok (some (d, dc)) =>
      if dc < bc then tabuLoop D cost sc n (current :: tabu) d dc d
      else tabuLoop D cost sc n (current :: tabu) best bc d

/-- Embedding of `tabu_search` from `src/search/tabu.rs`: best-so-far and
current start at the initial state, the tabu list starts empty. -/
def tabu_search {State : Type} [DecidableEq State] (state : State) (descendants : State → List State)
    (cost : State → ℚ) (max_iterations : Nat) (stopping_cost : Option ℚ) : State :=
  tabuLoop descendants cost stopping_cost max_iterations [] state (cost state) state

/-- Instrumented copy of `tabuLoop` that also records the value of `current` at
the start of each executed iteration (the state inserted into the tabu list);
`tabuRun_snd` proves its second component is exactly `tabuLoop`'s result. -/
def tabuRun {State : Type} [DecidableEq State] (D : State → List State) (cost : State → ℚ)
    (sc : Option ℚ) : Nat → List State → State → ℚ → State → List State × State
  | 0, _, best, _, _ => ([], best)
  | n + 1, tabu, best, bc, current =>
    match scanStep cost sc (current :: tabu) none (D current) with
    | .error d => ([current], d)
    | .ok none =>
      (current :: (tabuRun D cost sc n (current :: tabu) best bc current).1,
        (tabuRun D cost sc n (current :: tabu) best bc current).2)
    | .ok (some (d, dc)) =>
      if dc < bc then
        (current :: (tabuRun D cost sc n (current :: tabu) d dc d).1,
          (tabuRun D cost sc n (current :: tabu) d dc d).2)
      else
        (current :: (tabuRun D cost sc n (current :: tabu) best bc d).1,
          (tabuRun D cost sc n (current :: tabu) best bc d).2)

/-- Specification-side selector, written from the spec's words: "Track the
minimum-cost neighbor seen this iteration; ties keep the first neighbor
encountered in enumeration order".  `keepFirstMin` folds left keeping the
incumbent on ties and non-improvements. -/
def keepFirstMin {State : Type} (cost : State → ℚ) (b : State) (l : List State) : State :=
  l.foldl (fun acc x => if cost x < cost acc then x else acc) b

/-- Specification-side selector: the first minimum-cost non-tabu neighbor in
enumeration order, `none` when every neighbor is tabu. -/
def specFirstMin {State : Type} [DecidableEq State] (cost : State → ℚ) (tabu l : List State) :
    Option State :=
  match l.filter (fun x => decide (x ∉ tabu)) with
  | [] => none
  | x :: rest => some (keepFirstMin cost x rest)

/-- Specification-side selector for the early exit, written from the spec's
words: the first non-tabu neighbor in enumeration order whose cost is strictly
below the stopping cost. -/
def specFirstBelow {State : Type} [DecidableEq State] (cost : State → ℚ) (s : ℚ)
    (tabu l : List State) : Option State :=
  l.find? (fun x => decide (x ∉ tabu) && decide (cost x < s))

/-- Embedding of the single-item move of `descendants` in
`src/clustering/cluster_tabu.rs`: `new_clusters[i].retain(|x| x != item)`
followed by `new_clusters[j].push(item.clone())`. -/
def moveItem {Item : Type} [DecidableEq Item] (clusters : List (List Item)) (i j : Nat)
    (item : Item) : List (List Item) :=
  let c1 := clusters.set i ((clusters.getD i []).filter (fun x => decide (x ≠ item)))
  c1.set j ((c1.getD j []) ++ [item])

/-- Embedding of the local `descendants` function of `cluster_tabu`: for every
cluster index `i`, every item of cluster `i`, and every other cluster index
`j ≠ i`, the state obtained by moving that item from cluster `i` to cluster
`j`, in exactly that nested enumeration order. -/
def descendants {Item : Type} [DecidableEq Item] (clusters : List (List Item)) :
    List (List (List Item)) :=
  (List.range clusters.length).flatMap (fun i =>
    (clusters.getD i []).flatMap (fun item =>
      (List.range clusters.length).flatMap (fun j =>
        if i = j then [] else [moveItem clusters i j item])))

/-- Embedding of `cluster_tabu` from `src/clustering/cluster_tabu.rs`.  The
source computes the unchecked `usize` subtraction `n_clusters - 1` after the
`n_clusters == 1` early return; for `n_clusters == 0` that subtraction
underflows (a panic), modelled here by the `none` branch. -/
def cluster_tabu {Item : Type} [DecidableEq Item] (items : List Item)
    (cost : List (List Item) → ℚ) (n_clusters max_iterations : Nat) (stopping_cost : Option ℚ) :
    Option (List (List Item)) :=
  if n_clusters = 1 then some [items]
  else if n_clusters = 0 then none
  else some (tabu_search (items :: List.replicate (n_clusters - 1) []) descendants cost
    max_iterations stopping_cost)

/-- Sanity check mirroring the source's `test_tabu_search_linear` test. -/
lemma tabu_search_linear_check :
    tabu_search (20 : ℤ) (fun x => [x - 1, x, x + 1].filter (fun y => decide (0 ≤ y)))
      (fun x => (x : ℚ)) 100 none = 0 := by
  decide

/-! ### Basic facts about the descendant scan -/

lemma belowStop_eq_true {State : Type} {cost : State → ℚ} {sc : Option ℚ} {d : State} :
    belowStop cost sc d = true ↔ ∃ s, sc = some s ∧ cost d < s := by
  cases sc <;> simp [belowStop]

/-- An early exit of the scan returns a non-tabu element of the scanned list
whose cost beats the stopping cost. -/
lemma scanStep_error_spec {State : Type} [DecidableEq State] {cost : State → ℚ} {sc : Option ℚ}
    {tabu : List State} {d : State} :
    ∀ {l : List State} {acc : Option (State × ℚ)},
      scanStep cost sc tabu acc l = .error d →
        d ∈ l ∧ d ∉ tabu ∧ ∃ s, sc = some s ∧ cost d < s := by
  intro l
  induction l with
  | nil => intro acc h; simp [scanStep] at h
  | cons x rest ih =>
    intro acc h
    rw [scanStep] at h
    by_cases hx : x ∈ tabu
    · rw [if_pos hx] at h
      obtain ⟨h1, h2, h3⟩ := ih h
      exact ⟨List.mem_cons_of_mem _ h1, h2, h3⟩
    · rw [if_neg hx] at h
      by_cases hb : belowStop cost sc x = true
      · rw [if_pos hb] at h
        cases h
        exact ⟨List.mem_cons_self _ _, hx, belowStop_eq_true.mp hb⟩
      · rw [if_neg hb] at h
        obtain ⟨h1, h2, h3⟩ := ih h
        exact ⟨List.mem_cons_of_mem _ h1, h2, h3⟩

/-- A completed scan yields either its incoming accumulator or a non-tabu
element of the list paired with its cost. -/
lemma scanStep_ok_some_spec {State : Type} [DecidableEq State] {cost : State → ℚ} {sc : Option ℚ}
    {tabu : List State} {p : State × ℚ} :
    ∀ {l : List State} {acc : Option (State × ℚ)},
      scanStep cost sc tabu acc l = .ok (some p) →
        acc = some p ∨ (p.1 ∈ l ∧ p.1 ∉ tabu ∧ p.2 = cost p.1) := by
  intro l
  induction l with
  | nil => intro acc h; rw [scanStep] at h; cases h; exact Or.inl rfl
  | cons x rest ih =>
    intro acc h
    rw [scanStep] at h
    by_cases hx : x ∈ tabu
    · rw [if_pos hx] at h
      rcases ih h with h1 | ⟨h1, h2, h3⟩
      · exact Or.inl h1
      · exact Or.inr ⟨List.mem_cons_of_mem _ h1, h2, h3⟩
    · rw [if_neg hx] at h
      by_cases hb : belowStop cost sc x = true
      · rw [if_pos hb] at h; cases h
      · rw [if_neg hb] at h
        rcases ih h with h1 | ⟨h1, h2, h3⟩
        · rcases acc with _ | ⟨b, cb⟩
          · simp only [updAcc] at h1
            cases h1
            exact Or.inr ⟨List.mem_cons_self _ _, hx, rfl⟩
          · simp only [updAcc] at h1
            by_cases hcb : cost x < cb
            · rw [if_pos hcb] at h1
              cases h1
              exact Or.inr ⟨List.mem_cons_self _ _, hx, rfl⟩
            · rw [if_neg hcb] at h1
              exact Or.inl h1
        · exact Or.inr ⟨List.mem_cons_of_mem _ h1, h2, h3⟩

/-- The early-exit behaviour of the scan is exactly `specFirstBelow`: the scan
aborts with `d` iff `d` is the first non-tabu element of the list whose cost is
strictly below the stopping cost, irrespective of the accumulator. -/
lemma scanStep_error_iff {State : Type} [DecidableEq State] {cost : State → ℚ} {s : ℚ}
    {tabu : List State} {d : State} :
    ∀ {l : List State} {acc : Option (State × ℚ)},
      scanStep cost (some s) tabu acc l = .error d ↔ specFirstBelow cost s tabu l = some d := by
  intro l
  induction l with
  | nil => intro acc; simp [scanStep, specFirstBelow]
  | cons x rest ih =>
    intro acc
    rw [scanStep, specFirstBelow]
    by_cases hx : x ∈ tabu
    · rw [if_pos hx, List.find?_cons_of_neg _ (by simp [hx])]
      exact ih
    · rw [if_neg hx]
      by_cases hc : cost x < s
      · have hb : belowStop cost (some s) x = true := by simp [belowStop, hc]
        rw [if_pos hb, List.find?_cons_of_pos _ (by simp [hx, hc])]
        constructor
        · intro h; cases h; rfl
        · intro h; cases h; rfl
      · have hb : ¬ belowStop cost (some s) x = true := by simp [belowStop, hc]
        rw [if_neg hb, List.find?_cons_of_neg _ (by simp [hx, hc])]
        exact ih

/-- A stopping-cost hit among the current state's descendants makes the loop
return it from the running iteration, whatever fuel remains. -/
lemma tabuLoop_of_firstBelow {State : Type} [DecidableEq State] {D : State → List State}
    {cost : State → ℚ} {s : ℚ} {tabu : List State} {current d : State}
    (h : specFirstBelow cost s (current :: tabu) (D current) = some d) :
    ∀ (n : Nat) (best : State) (bc : ℚ),
      tabuLoop D cost (some s) (n + 1) tabu best bc current = d := by
  intro n best bc
  have hscan : scanStep cost (some s) (current :: tabu) none (D current) = .error d :=
    scanStep_error_iff.mpr h
  simp only [tabuLoop, hscan]

/-! ### C3: first-found-under-threshold wins -/

/-- C3: when the first non-tabu descendant of the current state with cost
strictly below the stopping cost `s` is `d` (in the descendant function's
enumeration order), the iteration returns `d` at once — for every remaining
iteration budget, every tracked best state, and even when a cheaper descendant
occurs later in the same enumeration. -/
theorem tabu_search_returns_first_below {State : Type} [DecidableEq State] (D : State → List State)
    (cost : State → ℚ) (s : ℚ) (tabu : List State) (best current d : State) (bc : ℚ) (n : Nat)
    (h : specFirstBelow cost s (current :: tabu) (D current) = some d) :
    tabuLoop D cost (some s) (n + 1) tabu best bc current = d ∧ cost d < s ∧ d ∈ D current := by
  refine ⟨tabuLoop_of_firstBelow h n best bc, ?_, List.mem_of_find?_eq_some h⟩
  have := List.find?_some h
  simp only [Bool.and_eq_true, decide_eq_true_eq] at this
  exact this.2

/-- C3 (witness): with descendants `[5, 1]` of the initial state `0`, identity
cost and stopping cost `10`, the run returns `5` — the first descendant under
the threshold — although the later descendant `1` is cheaper. -/
theorem tabu_search_returns_first_below_witness :
    tabuLoop (fun _ : ℤ => [5, 1]) (fun x => (x : ℚ)) (some 10) (0 + 1) [] 0 0 0 = 5 ∧
      (fun x : ℤ => (x : ℚ)) 5 < 10 ∧ (5 : ℤ) ∈ (fun _ : ℤ => [5, 1]) 0 :=
  tabu_search_returns_first_below (fun _ : ℤ => [5, 1]) (fun x => (x : ℚ)) 10 [] 0 0 5 0 0
    (by decide)

/-! ### C6: existence of a sub-threshold neighbor of the current state -/

/-- C6 (amended): if the stopping cost is set and some non-tabu descendant of
the current state costs strictly less than it, the engine returns a state with
cost strictly below the threshold within the running iteration, independently
of how many iterations remain. -/
theorem tabu_search_early_exit_of_below {State : Type} [DecidableEq State] (D : State → List State)
    (cost : State → ℚ) (s : ℚ) (tabu : List State) (best current : State) (bc : ℚ)
    (h : ∃ x ∈ D current, x ∉ (current :: tabu) ∧ cost x < s) :
    ∃ d, cost d < s ∧ ∀ n : Nat, tabuLoop D cost (some s) (n + 1) tabu best bc current = d := by
  obtain ⟨x, hxl, hxt, hxc⟩ := h
  cases hf : specFirstBelow cost s (current :: tabu) (D current) with
  | none =>
    exact absurd (List.find?_eq_none.mp hf x hxl) (by simp [hxt, hxc])
  | some d =>
    refine ⟨d, ?_, fun n => tabuLoop_of_firstBelow hf n best bc⟩
    have := List.find?_some hf
    simp only [Bool.and_eq_true, decide_eq_true_eq] at this
    exact this.2

/-- C6 (witness): initial state `0` with descendant `1` of cost `1` below the
stopping cost `10`: some state under the threshold is returned at once. -/
theorem tabu_search_early_exit_of_below_witness :
    ∃ d : ℤ, (fun x : ℤ => (x : ℚ)) d < 10 ∧
      ∀ n : Nat, tabuLoop (fun _ : ℤ => [1]) (fun x => (x : ℚ)) (some 10) (n + 1) [] 0 0 0 = d :=
  tabu_search_early_exit_of_below (fun _ : ℤ => [1]) (fun x => (x : ℚ)) 10 [] 0 0 0
    ⟨1, by decide, by decide, by decide⟩

/-- C6 (counterexample): the claim as stated fails.  Here `2` is a reachable
neighbor (`0 → 1` is a step and `2` is a neighbor of `1`) of cost `0 < 5`, yet
with `max_iterations = 1` the run exhausts its budget without ever scanning a
sub-threshold neighbor and returns the initial state of cost `10 ≥ 5`. -/
theorem tabu_search_misses_reachable_below :
    (Relation.ReflTransGen
        (fun a b : ℤ => b ∈ (fun x : ℤ => if x = 0 then [1] else if x = 1 then [2] else []) a) 0 1 ∧
      (2 : ℤ) ∈ (fun x : ℤ => if x = 0 then [1] else if x = 1 then [2] else []) 1 ∧
      (fun x : ℤ => if x = 2 then (0 : ℚ) else 10) 2 < 5) ∧
    ¬ (fun x : ℤ => if x = 2 then (0 : ℚ) else 10)
        (tabu_search (0 : ℤ) (fun x : ℤ => if x = 0 then [1] else if x = 1 then [2] else [])
          (fun x : ℤ => if x = 2 then (0 : ℚ) else 10) 1 (some 5)) < 5 := by
  refine ⟨⟨Relation.ReflTransGen.single (by decide), by decide, by decide⟩, by decide⟩

/-! ### C1: cost of the returned state versus cost of the initial state -/

/-- Invariant propagation through the outer loop: when the tracked best cost is
the cost of the tracked best state and does not exceed `c0`, the result of the
loop either costs at most `c0` or was returned by the stopping-cost exit. -/
lemma tabuLoop_cost_le {State : Type} [DecidableEq State] (D : State → List State)
    (cost : State → ℚ) (sc : Option ℚ) (c0 : ℚ) :
    ∀ (n : Nat) (tabu : List State) (best : State) (bc : ℚ) (current : State),
      cost best = bc → bc ≤ c0 →
      cost (tabuLoop D cost sc n tabu best bc current) ≤ c0 ∨
        ∃ s, sc = some s ∧ cost (tabuLoop D cost sc n tabu best bc current) < s := by
  intro n
  induction n with
  | zero =>
    intro tabu best bc current hb hle
    rw [tabuLoop]
    exact Or.inl (hb ▸ hle)
  | succ n ih =>
    intro tabu best bc current hb hle
    cases hscan : scanStep cost sc (current :: tabu) none (D current) with
    | error d =>
      obtain ⟨_, _, s, hs, hcs⟩ := scanStep_error_spec hscan
      simp only [tabuLoop, hscan]
      exact Or.inr ⟨s, hs, hcs⟩
    | ok acc =>
      rcases acc with _ | ⟨d, dc⟩
      · simp only [tabuLoop, hscan]
        exact ih (current :: tabu) best bc current hb hle
      · have hdc : dc = cost d := by
          rcases scanStep_ok_some_spec hscan with h1 | ⟨_, _, h3⟩
          · cases h1
          · exact h3
        simp only [tabuLoop, hscan]
        by_cases hlt : dc < bc
        · rw [if_pos hlt]
          exact ih (current :: tabu) d dc d hdc.symm (le_of_lt (lt_of_lt_of_le hlt hle))
        · rw [if_neg hlt]
          exact ih (current :: tabu) best bc d hb hle

/-- C1 (amended): the cost of the state returned by `tabu_search` is at most
the cost of the initial state, unless the run exits early through the
stopping-cost threshold, in which case the returned cost is strictly below
that threshold (but possibly above the initial cost). -/
theorem tabu_search_cost_le_initial_or_stop {State : Type} [DecidableEq State] (state : State)
    (D : State → List State) (cost : State → ℚ) (mi : Nat) (sc : Option ℚ) :
    cost (tabu_search state D cost mi sc) ≤ cost state ∨
      ∃ s, sc = some s ∧ cost (tabu_search state D cost mi sc) < s :=
  tabuLoop_cost_le D cost sc (cost state) mi [] state (cost state) state rfl le_rfl

/-- C1 (counterexample): with initial state `0` of cost `0`, a single neighbor
`1` of cost `1`, and stopping cost `100`, `tabu_search` returns `1`, whose cost
strictly exceeds the initial cost — the claimed monotonic-improvement property
fails for runs with a stopping cost above the initial cost. -/
theorem tabu_search_cost_can_exceed_initial :
    tabu_search (0 : ℤ) (fun _ => [1]) (fun x => (x : ℚ)) 1 (some 100) = 1 ∧
      ¬ (fun x => (x : ℚ)) (tabu_search (0 : ℤ) (fun _ => [1]) (fun x => (x : ℚ)) 1 (some 100)) ≤
          (fun x => (x : ℚ)) (0 : ℤ) := by
  decide

/-! ### C2: unconditional advance to the first minimum-cost non-tabu neighbor -/

lemma keepFirstMin_mem {State : Type} (cost : State → ℚ) :
    ∀ (l : List State) (b : State), keepFirstMin cost b l = b ∨ keepFirstMin cost b l ∈ l := by
  intro l
  induction l with
  | nil => intro b; exact Or.inl rfl
  | cons x rest ih =>
    intro b
    rw [keepFirstMin, List.foldl_cons]
    rcases ih (if cost x < cost b then x else b) with h | h
    · rw [keepFirstMin] at h
      rw [h]
      by_cases hc : cost x < cost b
      · rw [if_pos hc]; exact Or.inr (List.mem_cons_self _ _)
      · rw [if_neg hc]; exact Or.inl rfl
    · rw [keepFirstMin] at h
      exact Or.inr (List.mem_cons_of_mem _ h)

lemma keepFirstMin_le {State : Type} (cost : State → ℚ) :
    ∀ (l : List State) (b : State),
      cost (keepFirstMin cost b l) ≤ cost b ∧ ∀ x ∈ l, cost (keepFirstMin cost b l) ≤ cost x := by
  intro l
  induction l with
  | nil => intro b; exact ⟨le_rfl, by simp⟩
  | cons x rest ih =>
    intro b
    rw [keepFirstMin, List.foldl_cons]
    obtain ⟨h1, h2⟩ := ih (if cost x < cost b then x else b)
    rw [keepFirstMin] at h1 h2
    have hb : cost (if cost x < cost b then x else b) ≤ cost b := by
      by_cases hc : cost x < cost b
      · rw [if_pos hc]; exact le_of_lt hc
      · rw [if_neg hc]
    have hx : cost (if cost x < cost b then x else b) ≤ cost x := by
      by_cases hc : cost x < cost b
      · rw [if_pos hc]
      · rw [if_neg hc]; exact le_of_not_lt hc
    refine ⟨le_trans h1 hb, ?_⟩
    intro y hy
    rcases List.mem_cons.mp hy with rfl | hy'
    · exact le_trans h1 hx
    · exact h2 y hy'

/-- A scan with a well-formed incoming accumulator and no stopping-cost hit
folds the best-descendant tracking exactly as the spec's "keep the first
minimum" rule over the non-tabu elements. -/
lemma scanStep_acc_eq_fold {State : Type} [DecidableEq State] (cost : State → ℚ) (sc : Option ℚ)
    (tabu : List State) :
    ∀ (l : List State) (b : State), (∀ x ∈ l, x ∉ tabu → belowStop cost sc x = false) →
      scanStep cost sc tabu (some (b, cost b)) l =
        .ok (some (keepFirstMin cost b (l.filter (fun x => decide (x ∉ tabu))),
          cost (keepFirstMin cost b (l.filter (fun x => decide (x ∉ tabu)))))) := by
  intro l
  induction l with
  | nil => intro b _; simp [scanStep, keepFirstMin]
  | cons x rest ih =>
    intro b hne
    rw [scanStep]
    by_cases hx : x ∈ tabu
    · rw [if_pos hx]
      rw [List.filter_cons_of_neg (by simp [hx])]
      exact ih b (fun y hy => hne y (List.mem_cons_of_mem _ hy))
    · rw [if_neg hx, hne x (List.mem_cons_self _ _) hx, if_neg (Bool.false_ne_true)]
      rw [List.filter_cons_of_pos (by simp [hx])]
      have hupd : updAcc cost (some (b, cost b)) x =
          some (if cost x < cost b then x else b, cost (if cost x < cost b then x else b)) := by
        by_cases hc : cost x < cost b <;> simp [updAcc, hc]
      rw [hupd, ih _ (fun y hy => hne y (List.mem_cons_of_mem _ hy))]
      simp only [keepFirstMin, List.foldl_cons]

/-- A scan started on the empty accumulator and meeting no stopping-cost hit
computes exactly `specFirstMin`, paired with its cost. -/
lemma scanStep_eq_specFirstMin {State : Type} [DecidableEq State] (cost : State → ℚ)
    (sc : Option ℚ) (tabu : List State) :
    ∀ (l : List State), (∀ x ∈ l, x ∉ tabu → belowStop cost sc x = false) →
      scanStep cost sc tabu none l =
        .ok ((specFirstMin cost tabu l).map (fun d => (d, cost d))) := by
  intro l
  induction l with
  | nil => intro _; simp [scanStep, specFirstMin]
  | cons x rest ih =>
    intro hne
    rw [scanStep, specFirstMin]
    by_cases hx : x ∈ tabu
    · rw [if_pos hx]
      rw [List.filter_cons_of_neg (by simp [hx])]
      rw [ih (fun y hy => hne y (List.mem_cons_of_mem _ hy)), specFirstMin]
    · rw [if_neg hx, hne x (List.mem_cons_self _ _) hx, if_neg (Bool.false_ne_true)]
      rw [List.filter_cons_of_pos (by simp [hx])]
      have hupd : updAcc cost none x = some (x, cost x) := rfl
      rw [hupd, scanStep_acc_eq_fold cost sc tabu rest x
        (fun y hy => hne y (List.mem_cons_of_mem _ hy))]
      rfl

/-- C2: in an iteration where some non-tabu descendant exists and none beats
the stopping cost, the loop advances `current` unconditionally to the first
minimum-cost non-tabu descendant `d` in enumeration order (a non-tabu
descendant of minimum cost), and updates `best`/`best_cost` to `d`/`cost d`
exactly when `cost d` is strictly below the tracked best cost. -/
theorem tabu_search_advances_to_first_min {State : Type} [DecidableEq State]
    (D : State → List State) (cost : State → ℚ) (sc : Option ℚ) (tabu : List State)
    (best current : State) (bc : ℚ) (n : Nat)
    (hne : ∀ x ∈ D current, x ∉ (current :: tabu) → belowStop cost sc x = false)
    (hex : ∃ x ∈ D current, x ∉ (current :: tabu)) :
    ∃ d, specFirstMin cost (current :: tabu) (D current) = some d ∧
      d ∈ D current ∧ d ∉ (current :: tabu) ∧
      (∀ e ∈ D current, e ∉ (current :: tabu) → cost d ≤ cost e) ∧
      tabuLoop D cost sc (n + 1) tabu best bc current =
        (if cost d < bc then tabuLoop D cost sc n (current :: tabu) d (cost d) d
         else tabuLoop D cost sc n (current :: tabu) best bc d) := by
  obtain ⟨x, hxl, hxt⟩ := hex
  cases hfil : (D current).filter (fun y => decide (y ∉ (current :: tabu))) with
  | nil =>
    have hmem : x ∈ (D current).filter (fun y => decide (y ∉ (current :: tabu))) :=
      List.mem_filter.mpr ⟨hxl, by simpa using hxt⟩
    rw [hfil] at hmem
    exact absurd hmem (List.not_mem_nil x)
  | cons y rest =>
    have hspec : specFirstMin cost (current :: tabu) (D current) =
        some (keepFirstMin cost y rest) := by
      rw [specFirstMin, hfil]
    set d := keepFirstMin cost y rest with hd
    have hdfil : d ∈ (D current).filter (fun z => decide (z ∉ (current :: tabu))) := by
      rw [hfil]
      rcases keepFirstMin_mem cost rest y with h | h
      · rw [← hd] at h; rw [h]; exact List.mem_cons_self _ _
      · rw [← hd] at h; exact List.mem_cons_of_mem _ h
    have hdl : d ∈ D current := (List.mem_filter.mp hdfil).1
    have hdt : d ∉ (current :: tabu) := by
      have := (List.mem_filter.mp hdfil).2
      simpa using this
    refine ⟨d, hspec, hdl, hdt, ?_, ?_⟩
    · intro e hel het
      have hefil : e ∈ (D current).filter (fun z => decide (z ∉ (current :: tabu))) :=
        List.mem_filter.mpr ⟨hel, by simp [het]⟩
      rw [hfil] at hefil
      rcases List.mem_cons.mp hefil with rfl | he'
      · exact (keepFirstMin_le cost rest e).1
      · exact (keepFirstMin_le cost rest y).2 e he'
    · have hscan : scanStep cost sc (current :: tabu) none (D current) =
          .ok (some (d, cost d)) := by
        rw [scanStep_eq_specFirstMin cost sc (current :: tabu) (D current) hne, hspec]
        rfl
      simp only [tabuLoop, hscan]

/-- C2 (witness): from current state `0` with the single non-tabu descendant
`5` — strictly worse than `0` under the identity cost — and no stopping cost,
the loop still advances to `5`, and with tracked best cost `0` it does not
update the best state (`cost 5 < 0` is false). -/
theorem tabu_search_advances_to_first_min_witness :
    ∃ d, specFirstMin (fun x : ℤ => (x : ℚ)) ((0 : ℤ) :: []) ((fun _ : ℤ => [5]) 0) = some d ∧
      d ∈ (fun _ : ℤ => [5]) 0 ∧ d ∉ ((0 : ℤ) :: []) ∧
      (∀ e ∈ (fun _ : ℤ => [5]) 0, e ∉ ((0 : ℤ) :: []) →
        (fun x : ℤ => (x : ℚ)) d ≤ (fun x : ℤ => (x : ℚ)) e) ∧
      tabuLoop (fun _ : ℤ => [5]) (fun x : ℤ => (x : ℚ)) none (0 + 1) [] 0 0 0 =
        (if (fun x : ℤ => (x : ℚ)) d < 0 then
          tabuLoop (fun _ : ℤ => [5]) (fun x : ℤ => (x : ℚ)) none 0 ((0 : ℤ) :: []) d
            ((fun x : ℤ => (x : ℚ)) d) d
         else tabuLoop (fun _ : ℤ => [5]) (fun x : ℤ => (x : ℚ)) none 0 ((0 : ℤ) :: []) 0 0 d) :=
  tabu_search_advances_to_first_min (fun _ : ℤ => [5]) (fun x : ℤ => (x : ℚ)) none [] 0 0 0 0
    (by decide) ⟨5, by decide, by decide⟩

/-! ### C7: the cross-barrier test scenario -/

/-- C7: from initial state `0`, with neighbors `{x-1, x, x+1}` clipped to
`[0, 10]`, the V-shaped cost of the source's `test_tabu_search_cross_barier`
test, `100` iterations and no stopping cost, `tabu_search` returns `10`. -/
theorem tabu_search_cross_barrier :
    tabu_search (0 : ℤ)
      (fun x => [x - 1, x, x + 1].filter (fun y => decide (0 ≤ y) && decide (y ≤ 10)))
      (fun x => ((if x < 3 then x - 3 else 3 - x : ℤ) : ℚ)) 100 none = 10 := by
  decide

/-! ### C5: the tabu history and the sequence of current states -/

/-- Soundness of the instrumentation: the second component of `tabuRun` is
exactly the result of `tabuLoop`, so the recorded first component is the
sequence of current states of the actual run. -/
lemma tabuRun_snd {State : Type} [DecidableEq State] (D : State → List State) (cost : State → ℚ)
    (sc : Option ℚ) :
    ∀ (n : Nat) (tabu : List State) (best : State) (bc : ℚ) (current : State),
      (tabuRun D cost sc n tabu best bc current).2 = tabuLoop D cost sc n tabu best bc current := by
  intro n
  induction n with
  | zero => intro tabu best bc current; rfl
  | succ n ih =>
    intro tabu best bc current
    cases hscan : scanStep cost sc (current :: tabu) none (D current) with
    | error d => simp only [tabuRun, tabuLoop, hscan]
    | ok acc =>
      rcases acc with _ | ⟨d, dc⟩
      · simp only [tabuRun, tabuLoop, hscan]
        exact ih (current :: tabu) best bc current
      · simp only [tabuRun, tabuLoop, hscan]
        split_ifs with hlt
        · exact ih (current :: tabu) d dc d
        · exact ih (current :: tabu) best bc d

/-- Every recorded current state is either the state the sub-run started at or
a state outside the tabu list that sub-run started with. -/
lemma tabuRun_trace_avoids_tabu {State : Type} [DecidableEq State] (D : State → List State)
    (cost : State → ℚ) (sc : Option ℚ) :
    ∀ (n : Nat) (tabu : List State) (best : State) (bc : ℚ) (current : State),
      ∀ x ∈ (tabuRun D cost sc n tabu best bc current).1, x = current ∨ x ∉ (current :: tabu) := by
  intro n
  induction n with
  | zero => intro tabu best bc current x hx; simp [tabuRun] at hx
  | succ n ih =>
    intro tabu best bc current x hx
    cases hscan : scanStep cost sc (current :: tabu) none (D current) with
    | error d =>
      simp only [tabuRun, hscan] at hx
      rcases List.mem_cons.mp hx with rfl | hx'
      · exact Or.inl rfl
      · exact absurd hx' (List.not_mem_nil x)
    | ok acc =>
      rcases acc with _ | ⟨d, dc⟩
      · simp only [tabuRun, hscan] at hx
        rcases List.mem_cons.mp hx with rfl | hx'
        · exact Or.inl rfl
        · rcases ih (current :: tabu) best bc current x hx' with h | h
          · exact Or.inl h
          · exact Or.inr (fun hmem => h (List.mem_cons_of_mem _ hmem))
      · have hd : d ∉ (current :: tabu) := by
          rcases scanStep_ok_some_spec hscan with h | ⟨_, h2, _⟩
          · cases h
          · exact h2
        simp only [tabuRun, hscan] at hx
        split_ifs at hx with hlt
        · rcases List.mem_cons.mp hx with rfl | hx'
          · exact Or.inl rfl
          · rcases ih (current :: tabu) d dc d x hx' with rfl | h
            · exact Or.inr hd
            · exact Or.inr (fun hmem => h (List.mem_cons_of_mem _ hmem))
        · rcases List.mem_cons.mp hx with rfl | hx'
          · exact Or.inl rfl
          · rcases ih (current :: tabu) best bc d x hx' with rfl | h
            · exact Or.inr hd
            · exact Or.inr (fun hmem => h (List.mem_cons_of_mem _ hmem))

/-- A non-empty trace starts with the current state of the call. -/
lemma tabuRun_trace_head {State : Type} [DecidableEq State] (D : State → List State)
    (cost : State → ℚ) (sc : Option ℚ) (n : Nat) (tabu : List State) (best : State) (bc : ℚ)
    (current : State) :
    (tabuRun D cost sc n tabu best bc current).1 = [] ∨
      ∃ r, (tabuRun D cost sc n tabu best bc current).1 = current :: r := by
  cases n with
  | zero => exact Or.inl rfl
  | succ n =>
    cases hscan : scanStep cost sc (current :: tabu) none (D current) with
    | error d => exact Or.inr ⟨[], by simp only [tabuRun, hscan]⟩
    | ok acc =>
      rcases acc with _ | ⟨d, dc⟩
      · exact Or.inr ⟨(tabuRun D cost sc n (current :: tabu) best bc current).1,
          by simp only [tabuRun, hscan]⟩
      · by_cases hlt : dc < bc
        · refine Or.inr ⟨(tabuRun D cost sc n (current :: tabu) d dc d).1, ?_⟩
          simp only [tabuRun, hscan]
          rw [if_pos hlt]
        · refine Or.inr ⟨(tabuRun D cost sc n (current :: tabu) best bc d).1, ?_⟩
          simp only [tabuRun, hscan]
          rw [if_neg hlt]

/-- After an advance away from `current`, the rest of the run never records
`current` again: the advanced-to state avoids the tabu list, which contains
`current`, and so do all later current states. -/
lemma current_not_mem_advance_trace {State : Type} [DecidableEq State] (D : State → List State)
    (cost : State → ℚ) (sc : Option ℚ) (n : Nat) (tabu : List State) (best : State) (bc : ℚ)
    (current d : State) (hd : d ∉ (current :: tabu)) :
    current ∉ (tabuRun D cost sc n (current :: tabu) best bc d).1 := by
  intro hmem
  rcases tabuRun_trace_avoids_tabu D cost sc n (current :: tabu) best bc d current hmem with h | h
  · exact hd (h ▸ List.mem_cons_self current tabu)
  · exact h (List.mem_cons_of_mem _ (List.mem_cons_self current tabu))

/-- Anti-cycling along the trace: whenever the recorded sequence of current
states departs a state `a` (the next recorded state `b` differs from it), the
state `a` never occurs again later in the trace. -/
lemma tabuRun_no_revisit {State : Type} [DecidableEq State] (D : State → List State)
    (cost : State → ℚ) (sc : Option ℚ) :
    ∀ (n : Nat) (tabu : List State) (best : State) (bc : ℚ) (current : State)
      (pre : List State) (a b : State) (post : List State),
      (tabuRun D cost sc n tabu best bc current).1 = pre ++ a :: b :: post →
      a ≠ b → a ∉ (b :: post) := by
  intro n
  induction n with
  | zero =>
    intro tabu best bc current pre a b post h hab
    have := congrArg List.length h
    simp [tabuRun] at this
    omega
  | succ n ih =>
    intro tabu best bc current pre a b post h hab
    cases hscan : scanStep cost sc (current :: tabu) none (D current) with
    | error d =>
      simp only [tabuRun, hscan] at h
      have := congrArg List.length h
      simp at this
      omega
    | ok acc =>
      rcases acc with _ | ⟨d, dc⟩
      · simp only [tabuRun, hscan] at h
        cases pre with
        | nil =>
          rw [List.nil_append] at h
          injection h with h1 h2
          rcases tabuRun_trace_head D cost sc n (current :: tabu) best bc current with hnil | ⟨r, hr⟩
          · rw [hnil] at h2; cases h2
          · rw [hr] at h2
            injection h2 with h3 _
            exact absurd (h1.symm.trans h3) hab
        | cons p pre' =>
          rw [List.cons_append] at h
          injection h with _ h2
          exact ih (current :: tabu) best bc current pre' a b post h2 hab
      · have hd : d ∉ (current :: tabu) := by
          rcases scanStep_ok_some_spec hscan with hcase | ⟨_, h2, _⟩
          · cases hcase
          · exact h2
        simp only [tabuRun, hscan] at h
        split_ifs at h with hlt
        · cases pre with
          | nil =>
            rw [List.nil_append] at h
            injection h with h1 h2
            intro hmem
            exact current_not_mem_advance_trace D cost sc n tabu d dc current d hd
              (h2 ▸ (h1 ▸ hmem))
          | cons p pre' =>
            rw [List.cons_append] at h
            injection h with _ h2
            exact ih (current :: tabu) d dc d pre' a b post h2 hab
        · cases pre with
          | nil =>
            rw [List.nil_append] at h
            injection h with h1 h2
            intro hmem
            exact current_not_mem_advance_trace D cost sc n tabu best bc current d hd
              (h2 ▸ (h1 ▸ hmem))
          | cons p pre' =>
            rw [List.cons_append] at h
            injection h with _ h2
            exact ih (current :: tabu) best bc d pre' a b post h2 hab

/-- C5 (amended): over a full run of the engine started like `tabu_search`
(empty tabu list, best = current = initial state), once the walk departs a
current state — the next recorded current state differs from it — that state
is never the current state again.  (Pairwise distinctness of the whole
sequence fails only through stalling, where the final state repeats.) -/
theorem tabu_search_never_revisits_departed {State : Type} [DecidableEq State] (init : State)
    (D : State → List State) (cost : State → ℚ) (mi : Nat) (sc : Option ℚ)
    (pre : List State) (a b : State) (post : List State)
    (h : (tabuRun D cost sc mi [] init (cost init) init).1 = pre ++ a :: b :: post)
    (hab : a ≠ b) : a ∉ (b :: post) :=
  tabuRun_no_revisit D cost sc mi [] init (cost init) init pre a b post h hab

/-- C5 (witness): the run from `0` with descendant map `x ↦ [x + 1]` and three
iterations records the trace `[0, 1, 2]`; having departed `0` for `1`, the
walk never records `0` again. -/
theorem tabu_search_never_revisits_departed_witness : (0 : ℤ) ∉ ([1, 2] : List ℤ) :=
  tabu_search_never_revisits_departed (0 : ℤ) (fun x => [x + 1]) (fun _ => (0 : ℚ)) 3 none
    [] 0 1 [2] (by decide) (by decide)

/-- C5 (counterexample): the sequence of current states over the iterations is
not pairwise distinct in general.  With no descendants at all and two
iterations, the walk stalls and the recorded sequence is `[0, 0]`. -/
theorem tabu_search_trace_not_nodup :
    ¬ ((tabuRun (fun _ : ℤ => []) (fun _ => (0 : ℚ)) none 2 [] 0 ((fun _ : ℤ => (0 : ℚ)) 0) 0).1).Nodup := by
  decide

/-! ### C8 and C9: the clustering adapter's special cases -/

/-! ### C4 and C10: the clustering adapter's moves and the partition invariant -/

lemma getD_eq_getElem_of_lt {α : Type} (l : List α) (i : Nat) (d : α) (h : i < l.length) :
    l.getD i d = l[i] := by
  simp [List.getD_eq_getElem?_getD, List.getElem?_eq_getElem h]

/-- Replacing the entry at a valid index changes the sum of a mapped list by
exactly the difference between the new and the old image. -/
lemma sum_map_set {α : Type} (f : α → Nat) :
    ∀ (l : List α) (i : Nat) (b : α) (h : i < l.length),
      ((l.set i b).map f).sum + f l[i] = (l.map f).sum + f b := by
  intro l
  induction l with
  | nil => intro i b h; simp at h
  | cons x rest ih =>
    intro i b h
    cases i with
    | zero => simp; omega
    | succ i =>
      simp only [List.set_cons_succ, List.map_cons, List.sum_cons, List.getElem_cons_succ]
      have := ih i b (by simpa using h)
      omega

/-- Accounting identity for a single move: for any additive measure `f` on
groups, the total over the moved-to partition plus the old images of groups
`i` and `j` equals the total over the original partition plus the images of
the filtered group `i` and the extended group `j`. -/
lemma sum_map_moveItem {Item : Type} [DecidableEq Item] (f : List Item → Nat)
    (cs : List (List Item)) (i j : Nat) (item : Item) (hi : i < cs.length) (hj : j < cs.length)
    (hij : i ≠ j) :
    ((moveItem cs i j item).map f).sum + f (cs.getD i []) + f (cs.getD j []) =
      (cs.map f).sum + f ((cs.getD i []).filter (fun y => decide (y ≠ item))) +
        f (cs.getD j [] ++ [item]) := by
  set fi := (cs.getD i []).filter (fun y => decide (y ≠ item)) with hfi
  have hgi : cs.getD i [] = cs[i] := getD_eq_getElem_of_lt cs i [] hi
  have hgj : cs.getD j [] = cs[j] := getD_eq_getElem_of_lt cs j [] hj
  have hj1 : j < (cs.set i fi).length := by simpa using hj
  have e1 := sum_map_set f cs i fi hi
  have hc1j : (cs.set i fi)[j] = cs[j] := List.getElem_set_ne hij hj1
  have hc1jD : (cs.set i fi).getD j [] = cs.getD j [] := by
    rw [getD_eq_getElem_of_lt _ j [] hj1, hc1j, hgj]
  have e2 := sum_map_set f (cs.set i fi) j ((cs.set i fi).getD j [] ++ [item]) hj1
  have hBi : f (cs.getD i []) = f cs[i] := congrArg f hgi
  have hCj : f (cs.getD j []) = f cs[j] := congrArg f hgj
  simp only [moveItem, ← hfi]
  rw [hc1jD]
  rw [hc1jD, hc1j] at e2
  omega

lemma length_filter_ne_add_count {Item : Type} [DecidableEq Item] (item : Item) :
    ∀ l : List Item, (l.filter (fun y => decide (y ≠ item))).length + l.count item = l.length := by
  intro l
  induction l with
  | nil => simp
  | cons x rest ih =>
    by_cases hx : x = item
    · subst hx
      rw [List.filter_cons_of_neg (by simp), List.count_cons_self]
      simp only [List.length_cons]
      omega
    · rw [List.filter_cons_of_pos (by simp [hx]), List.count_cons_of_ne (Ne.symm hx)]
      simp only [List.length_cons]
      omega

/-- The move's effect on the total number of items: the flattened result plus
the number of copies of the moved item in its source group equals the original
total plus one (so a group holding `k ≥ 2` equal copies loses `k - 1` items). -/
lemma length_flatten_moveItem {Item : Type} [DecidableEq Item] (cs : List (List Item))
    (i j : Nat) (item : Item) (hi : i < cs.length) (hj : j < cs.length) (hij : i ≠ j) :
    (moveItem cs i j item).flatten.length + (cs.getD i []).count item = cs.flatten.length + 1 := by
  have h := sum_map_moveItem List.length cs i j item hi hj hij
  have hfil := length_filter_ne_add_count item (cs.getD i [])
  rw [List.length_append] at h
  simp only [List.length_flatten]
  simp only [List.length_cons, List.length_nil] at h
  omega

/-- The move's effect on the count of an arbitrary element of the flattened
partition, stated without subtraction. -/
lemma count_flatten_moveItem {Item : Type} [DecidableEq Item] (x : Item) (cs : List (List Item))
    (i j : Nat) (item : Item) (hi : i < cs.length) (hj : j < cs.length) (hij : i ≠ j) :
    (moveItem cs i j item).flatten.count x + (cs.getD i []).count x + (cs.getD j []).count x =
      cs.flatten.count x + ((cs.getD i []).filter (fun y => decide (y ≠ item))).count x +
        (cs.getD j [] ++ [item]).count x := by
  have h := sum_map_moveItem (List.count x) cs i j item hi hj hij
  simp only [List.count_flatten]
  exact h

/-- When the moved item occurs exactly once in its source group, the move
permutes the flattened partition. -/
lemma moveItem_perm {Item : Type} [DecidableEq Item] {cs : List (List Item)} {i j : Nat}
    {item : Item} (hi : i < cs.length) (hj : j < cs.length) (hij : i ≠ j)
    (hcount : (cs.getD i []).count item = 1) :
    (moveItem cs i j item).flatten.Perm cs.flatten := by
  rw [List.perm_iff_count]
  intro x
  have h := count_flatten_moveItem x cs i j item hi hj hij
  by_cases hx : x = item
  · subst hx
    have h0 : ((cs.getD i []).filter (fun y => decide (y ≠ x))).count x = 0 := by
      rw [List.count_eq_zero]
      intro hmem
      have := (List.mem_filter.mp hmem).2
      simp at this
    have h1 : (cs.getD j [] ++ [x]).count x = (cs.getD j []).count x + 1 := by
      rw [List.count_append, List.count_singleton_self]
    rw [h0, h1] at h
    omega
  · have hpx : (fun y => decide (y ≠ item)) x = true := decide_eq_true hx
    have h1 : ((cs.getD i []).filter (fun y => decide (y ≠ item))).count x =
        (cs.getD i []).count x := List.count_filter hpx
    have h2 : (cs.getD j [] ++ [item]).count x = (cs.getD j []).count x := by
      rw [List.count_append]
      have : x ∉ [item] := by simp [hx]
      rw [List.count_eq_zero.mpr this]
      omega
    rw [h1, h2] at h
    omega

/-- The moved-from group of the result: every copy of the moved item is
removed (the source's `retain(|x| x != item)`). -/
lemma moveItem_getD_src {Item : Type} [DecidableEq Item] (cs : List (List Item)) (i j : Nat)
    (item : Item) (hi : i < cs.length) (hij : i ≠ j) :
    (moveItem cs i j item).getD i [] = (cs.getD i []).filter (fun y => decide (y ≠ item)) := by
  set fi := (cs.getD i []).filter (fun y => decide (y ≠ item)) with hfi
  have h1 : ((cs.set i fi).set j ((cs.set i fi).getD j [] ++ [item]))[i]? = (cs.set i fi)[i]? :=
    List.getElem?_set_ne (Ne.symm hij)
  have h2 : (cs.set i fi)[i]? = some fi := List.getElem?_set_self hi
  simp only [moveItem, ← hfi]
  rw [List.getD_eq_getElem?_getD, h1, h2]
  rfl

/-- The moved-to group of the result: exactly one copy of the moved item is
appended (the source's `push(item.clone())`). -/
lemma moveItem_getD_dst {Item : Type} [DecidableEq Item] (cs : List (List Item)) (i j : Nat)
    (item : Item) (hj : j < cs.length) (hij : i ≠ j) :
    (moveItem cs i j item).getD j [] = cs.getD j [] ++ [item] := by
  set fi := (cs.getD i []).filter (fun y => decide (y ≠ item)) with hfi
  have hj1 : j < (cs.set i fi).length := by simpa using hj
  have h1 : ((cs.set i fi).set j ((cs.set i fi).getD j [] ++ [item]))[j]? =
      some ((cs.set i fi).getD j [] ++ [item]) := List.getElem?_set_self hj1
  have h2 : (cs.set i fi).getD j [] = cs.getD j [] := by
    rw [List.getD_eq_getElem?_getD, List.getElem?_set_ne hij, ← List.getD_eq_getElem?_getD]
  simp only [moveItem, ← hfi]
  rw [List.getD_eq_getElem?_getD, h1]
  simp only [Option.getD_some]
  rw [h2]

/-- Membership in the adapter's neighbor list unpacked: a neighbor is exactly
a single-item move between two distinct valid cluster indices. -/
lemma mem_descendants {Item : Type} [DecidableEq Item] {cs d : List (List Item)} :
    d ∈ descendants cs ↔
      ∃ i item j, i < cs.length ∧ item ∈ cs.getD i [] ∧ j < cs.length ∧ i ≠ j ∧
        d = moveItem cs i j item := by
  constructor
  · intro h
    simp only [descendants, List.mem_flatMap, List.mem_range] at h
    obtain ⟨i, hi, item, hitem, j, hj, hd⟩ := h
    by_cases hij : i = j
    · rw [if_pos hij] at hd
      exact absurd hd (List.not_mem_nil d)
    · rw [if_neg hij] at hd
      rw [List.mem_singleton] at hd
      exact ⟨i, item, j, hi, hitem, hj, hij, hd⟩
  · rintro ⟨i, item, j, hi, hitem, hj, hij, rfl⟩
    simp only [descendants, List.mem_flatMap, List.mem_range]
    exact ⟨i, hi, item, hitem, j, hj, by rw [if_neg hij]; exact List.mem_singleton_self _⟩

/-- An item of a group of a duplicate-free partition occurs exactly once in
that group. -/
lemma count_one_of_nodup_flatten {Item : Type} [DecidableEq Item] {cs : List (List Item)}
    {i : Nat} {item : Item} (hi : i < cs.length) (hnd : cs.flatten.Nodup)
    (hmem : item ∈ cs.getD i []) :
    (cs.getD i []).count item = 1 := by
  have hgi : cs.getD i [] = cs[i] := getD_eq_getElem_of_lt cs i [] hi
  have hsub : List.Sublist cs[i] cs.flatten := List.sublist_flatten_of_mem (List.getElem_mem hi)
  have hle : cs.flatten.count item ≤ 1 := List.nodup_iff_count_le_one.mp hnd item
  have h1 : 0 < (cs.getD i []).count item := List.count_pos_iff.mpr hmem
  have h2 : (cs.getD i []).count item ≤ cs.flatten.count item := by
    rw [hgi]
    exact hsub.count_le item
  omega

/-- Any property preserved by the descendant function and holding of the
tracked best and current states holds of the loop's result. -/
lemma tabuLoop_invariant {State : Type} [DecidableEq State] (D : State → List State)
    (cost : State → ℚ) (sc : Option ℚ) (P : State → Prop)
    (hstep : ∀ s d, P s → d ∈ D s → P d) :
    ∀ (n : Nat) (tabu : List State) (best : State) (bc : ℚ) (current : State),
      P best → P current → P (tabuLoop D cost sc n tabu best bc current) := by
  intro n
  induction n with
  | zero =>
    intro tabu best bc current hb hc
    rw [tabuLoop]
    exact hb
  | succ n ih =>
    intro tabu best bc current hb hc
    cases hscan : scanStep cost sc (current :: tabu) none (D current) with
    | error d =>
      obtain ⟨hmem, _, _⟩ := scanStep_error_spec hscan
      simp only [tabuLoop, hscan]
      exact hstep current d hc hmem
    | ok acc =>
      rcases acc with _ | ⟨d, dc⟩
      · simp only [tabuLoop, hscan]
        exact ih (current :: tabu) best bc current hb hc
      · have hd : P d := by
          rcases scanStep_ok_some_spec hscan with hcase | ⟨h1, _, _⟩
          · cases hcase
          · exact hstep current d hc h1
        simp only [tabuLoop, hscan]
        split_ifs with hlt
        · exact ih (current :: tabu) d dc d hd hd
        · exact ih (current :: tabu) best bc d hb hd

lemma flatten_replicate_nil {Item : Type} :
    ∀ k : Nat, (List.replicate k ([] : List Item)).flatten = [] := by
  intro k
  induction k with
  | zero => rfl
  | succ k ih => simp [List.replicate_succ, ih]

/-- For duplicate-free inputs, one move preserves the group count and the
multiset of items of the partition. -/
lemma descendants_preserve {Item : Type} [DecidableEq Item] {items : List Item} {k : Nat}
    (hnd : items.Nodup) (s d : List (List Item))
    (hs : s.length = k ∧ s.flatten.Perm items) (hd : d ∈ descendants s) :
    d.length = k ∧ d.flatten.Perm items := by
  obtain ⟨i, item, j, hi, hitem, hj, hij, rfl⟩ := mem_descendants.mp hd
  have hnds : s.flatten.Nodup := hs.2.nodup_iff.mpr hnd
  have hc1 := count_one_of_nodup_flatten hi hnds hitem
  refine ⟨?_, (moveItem_perm hi hj hij hc1).trans hs.2⟩
  simp only [moveItem, List.length_set]
  exact hs.1

/-- C10: a single move removes from the source group every element equal to
the moved item and appends exactly one copy to the destination group; the
flattened item count drops by one less than the number of equal copies in the
source group (so `k ≥ 2` copies lose `k - 1` items), and the move preserves
the multiset of items precisely when the moved item had no duplicate in its
group. -/
theorem moveItem_semantics {Item : Type} [DecidableEq Item] (cs : List (List Item)) (i j : Nat)
    (item : Item) (hi : i < cs.length) (hj : j < cs.length) (hij : i ≠ j)
    (hmem : item ∈ cs.getD i []) :
    (moveItem cs i j item).getD i [] = (cs.getD i []).filter (fun y => decide (y ≠ item)) ∧
      (moveItem cs i j item).getD j [] = cs.getD j [] ++ [item] ∧
      (moveItem cs i j item).flatten.length + (cs.getD i []).count item =
        cs.flatten.length + 1 ∧
      ((moveItem cs i j item).flatten.Perm cs.flatten ↔ (cs.getD i []).count item = 1) := by
  refine ⟨moveItem_getD_src cs i j item hi hij, moveItem_getD_dst cs i j item hj hij,
    length_flatten_moveItem cs i j item hi hj hij, ?_, ?_⟩
  · intro hperm
    have hlen := hperm.length_eq
    have h := length_flatten_moveItem cs i j item hi hj hij
    omega
  · intro hcount
    exact moveItem_perm hi hj hij hcount

/-- C10 (witness): the move of one copy of `0` out of the group `[0, 0]`
deletes both copies and appends a single copy, shrinking the partition. -/
theorem moveItem_semantics_witness :
    (moveItem ([[0, 0], []] : List (List ℤ)) 0 1 0).getD 0 [] =
        (([[0, 0], []] : List (List ℤ)).getD 0 []).filter (fun y => decide (y ≠ 0)) ∧
      (moveItem ([[0, 0], []] : List (List ℤ)) 0 1 0).getD 1 [] =
        ([[0, 0], []] : List (List ℤ)).getD 1 [] ++ [0] ∧
      (moveItem ([[0, 0], []] : List (List ℤ)) 0 1 0).flatten.length +
          (([[0, 0], []] : List (List ℤ)).getD 0 []).count 0 =
        ([[0, 0], []] : List (List ℤ)).flatten.length + 1 ∧
      ((moveItem ([[0, 0], []] : List (List ℤ)) 0 1 0).flatten.Perm
          ([[0, 0], []] : List (List ℤ)).flatten ↔
        (([[0, 0], []] : List (List ℤ)).getD 0 []).count 0 = 1) :=
  moveItem_semantics [[0, 0], []] 0 1 0 (by decide) (by decide) (by decide) (by decide)

/-- C4 (amended): for `n_clusters ≥ 1` and pairwise-distinct input items, the
returned partition has exactly `n_clusters` groups and its concatenation is a
permutation of the input items. -/
theorem cluster_tabu_partition {Item : Type} [DecidableEq Item] (items : List Item)
    (cost : List (List Item) → ℚ) (n mi : Nat) (sc : Option ℚ) (r : List (List Item))
    (hnd : items.Nodup) (hn : 1 ≤ n) (hr : cluster_tabu items cost n mi sc = some r) :
    r.length = n ∧ r.flatten.Perm items := by
  by_cases h1 : n = 1
  · subst h1
    rw [cluster_tabu, if_pos rfl] at hr
    injection hr with hr
    subst hr
    exact ⟨rfl, by simp⟩
  · have h0 : ¬ n = 0 := by omega
    rw [cluster_tabu, if_neg h1, if_neg h0] at hr
    injection hr with hr
    subst hr
    have hInit : (items :: List.replicate (n - 1) ([] : List Item)).length = n ∧
        (items :: List.replicate (n - 1) ([] : List Item)).flatten.Perm items := by
      constructor
      · simp only [List.length_cons, List.length_replicate]
        omega
      · rw [List.flatten_cons, flatten_replicate_nil, List.append_nil]
    rw [tabu_search]
    exact tabuLoop_invariant descendants cost sc
      (fun s => s.length = n ∧ s.flatten.Perm items)
      (fun s d hs hd => descendants_preserve hnd s d hs hd) mi [] _ _ _ hInit hInit

/-- C4 (counterexample): with the duplicated input `[0, 0]` the claim as
stated fails: a move deletes both copies of `0` from the first group while
adding only one to the second, and the search returns the partition
`[[], [0]]`, which omits one input item. -/
theorem cluster_tabu_loses_duplicates :
    cluster_tabu [(0 : ℤ), 0] (fun cs => ((cs.getD 0 []).length : ℚ)) 2 1 none =
        some [[], [0]] ∧
      ¬ ([[], [(0 : ℤ)]] : List (List ℤ)).flatten.Perm [0, 0] := by
  constructor
  · decide
  · decide

/-- C4 (witness): clustering the distinct items `[1, 2]` into two groups with
a constant cost and one iteration returns `[[1, 2], []]`: two groups whose
concatenation is a permutation of the input. -/
theorem cluster_tabu_partition_witness :
    ([[1, 2], []] : List (List ℤ)).length = 2 ∧
      ([[1, 2], []] : List (List ℤ)).flatten.Perm [1, 2] :=
  cluster_tabu_partition [(1 : ℤ), 2] (fun _ => (0 : ℚ)) 2 1 none [[1, 2], []]
    (by decide) (by decide) (by decide)

/-- C8: with `n_clusters = 1` the adapter returns the single group holding the
input items, for every cost function, iteration budget and stopping cost; in
particular the result does not depend on the cost function (it is never
invoked) nor on the search parameters (the engine is never entered). -/
theorem cluster_tabu_single_cluster {Item : Type} [DecidableEq Item] (items : List Item)
    (cost cost' : List (List Item) → ℚ) (mi mi' : Nat) (sc sc' : Option ℚ) :
    cluster_tabu items cost 1 mi sc = some [items] ∧
      cluster_tabu items cost 1 mi sc = cluster_tabu items cost' 1 mi' sc' := by
  simp [cluster_tabu]

/-- C9: the adapter fails (the source's unchecked `n_clusters - 1` underflow,
modelled by the `none` branch) exactly when `n_clusters = 0`; for every
`n_clusters ≥ 1` it returns a partition. -/
theorem cluster_tabu_none_iff {Item : Type} [DecidableEq Item] (items : List Item)
    (cost : List (List Item) → ℚ) (n mi : Nat) (sc : Option ℚ) :
    cluster_tabu items cost n mi sc = none ↔ n = 0 := by
  rcases n with _ | _ | n <;> simp [cluster_tabu]
